import Mathlib

/-!
Verification development for the inspire-exex repository.

Bytes are modelled as `Nat` (values below 256 where the source guarantees it),
byte strings as `List Nat`.  Machine-integer casts (`as u32`, `to_le_bytes`)
are modelled by explicit truncation: `leBytes n v` keeps `v mod 2^(8*n)`.
External crates (the `aes` block cipher, `tiny_keccak`) are parameters of the
definitions that call them, exactly as wide as the source uses them.
-/

/-- `n` little-endian bytes of `v` (mirrors `to_le_bytes`, truncating to `2^(8n)`). -/
def leBytes : Nat → Nat → List Nat
  | 0, _ => []
  | n + 1, v => v % 256 :: leBytes n (v / 256)

/-- Little-endian byte decoding (mirrors `from_le_bytes`). -/
def fromLeBytes : List Nat → Nat
  | [] => 0
  | b :: bs => b + 256 * fromLeBytes bs

/-- `n` big-endian bytes of `v` (mirrors `to_be_bytes`). -/
def beBytes (n v : Nat) : List Nat :=
  (leBytes n v).reverse

/-- Big-endian byte decoding of a byte string. -/
def fromBeBytes (l : List Nat) : Nat :=
  fromLeBytes l.reverse


/-!
## Subset PRF (crates/pir-core/src/prf.rs)

`Aes128::encrypt_block` comes from the external `aes` crate, so the block
cipher is a parameter `aes : List Nat → List Nat → List Nat` (key, then
plaintext block).  `Prf::generate_index` computes `value % domain_size`,
which panics in Rust when `domain_size = 0`; that fallibility is modelled
by `Option`.  The unbounded `while` loop of `generate_subset` is modelled
with explicit fuel; `HashSet` insertion is modelled by conditional append
(the final `sort_unstable` makes the collection order irrelevant), and
`sort_unstable` by `List.insertionSort`.
-/

/-- PRF state: cipher keyed with the first 16 seed bytes, plus the domain size. -/
structure Prf where
  encrypt : List Nat → List Nat
  domain_size : Nat

/-- `Prf::new`: key the cipher with the first 16 bytes of the seed. -/
def Prf.new (aes : List Nat → List Nat → List Nat) (seed : List Nat) (domain_size : Nat) :
    Prf :=
  { encrypt := aes (seed.take 16), domain_size := domain_size }

/-- `Prf::generate_index`: encrypt `counter_le(8) || 0(8)`, read the first 8
ciphertext bytes little-endian, reduce modulo `domain_size`.  `none` models
the Rust panic on `% 0`. -/
def Prf.generate_index (p : Prf) (counter : Nat) : Option Nat :=
  if p.domain_size = 0 then none
  else
    some (fromLeBytes ((p.encrypt (leBytes 8 counter ++ List.replicate 8 0)).take 8) %
      p.domain_size)

/-- The rejection-sampling loop of `Prf::generate_subset`, with fuel bounding
the number of iterations of the Rust `while` loop. -/
def Prf.generate_subsetAux (p : Prf) (size : Nat) :
    Nat → Nat → List Nat → Option (List Nat)
  | 0, _, acc =>
    if acc.length < size then none else some (acc.insertionSort (· ≤ ·))
  | fuel + 1, counter, acc =>
    if acc.length < size then
      match p.generate_index counter with
      | none => none
      | some idx =>
          Prf.generate_subsetAux p size fuel (counter + 1)
            (if idx ∈ acc then acc else acc ++ [idx])
    else some (acc.insertionSort (· ≤ ·))

/-- `Prf::generate_subset`: run the loop from counter 0 with an empty set. -/
def Prf.generate_subset (p : Prf) (size fuel : Nat) : Option (List Nat) :=
  Prf.generate_subsetAux p size fuel 0 []

/-- `expand_seed`: convenience wrapper. -/
def expand_seed (aes : List Nat → List Nat → List Nat) (seed : List Nat)
    (subset_size domain_size fuel : Nat) : Option (List Nat) :=
  (Prf.new aes seed domain_size).generate_subset subset_size fuel

/-- `Subset` (crates/pir-core/src/subset.rs). -/
structure Subset where
  seed : List Nat
  size : Nat
  domain_size : Nat

/-- `Subset::expand`: forwards to `expand_seed` with no validation. -/
def Subset.expand (aes : List Nat → List Nat → List Nat) (s : Subset) (fuel : Nat) :
    Option (List Nat) :=
  expand_seed aes s.seed s.size s.domain_size fuel

/-- `CompressedQuery` (crates/pir-core/src/subset.rs): seed plus parameters as
they arrive from the network. -/
structure CompressedQuery where
  seed : List Nat
  subset_size : Nat
  domain_size : Nat

/-- `CompressedQuery::expand`: forwards to `expand_seed` with no validation. -/
def CompressedQuery.expand (aes : List Nat → List Nat → List Nat) (q : CompressedQuery)
    (fuel : Nat) : Option (List Nat) :=
  expand_seed aes q.seed q.subset_size q.domain_size fuel

/-!
## Hint engine (crates/pir-core/src/hint.rs)

32-byte entries (`ENTRY_SIZE = 32`) modelled as byte lists; `xor_into`
mutates `dst` in place in Rust, modelled as returning the new value.
-/

/-- `ENTRY_SIZE`: Ethereum storage slot width in bytes. -/
def ENTRY_SIZE : Nat := 32

/-- `xor_into`: byte-wise XOR of `src` into `dst`. -/
def xor_into (dst src : List Nat) : List Nat :=
  List.zipWith (fun a b => a ^^^ b) dst src

/-- `compute_hint`: XOR the entries at the given indices. -/
def compute_hint (indices : List Nat) (get_entry : Nat → List Nat) : List Nat :=
  indices.foldl (fun h i => xor_into h (get_entry i)) (List.replicate ENTRY_SIZE 0)

/-- `recover_entry`: `response XOR hint`. -/
def recover_entry (response hint : List Nat) : List Nat :=
  xor_into response hint

/-- `update_hint`: `hint XOR old_value XOR new_value`. -/
def update_hint (hint old_value new_value : List Nat) : List Nat :=
  xor_into (xor_into hint old_value) new_value

/-- `xor_entries`: XOR a list of entries together, starting from zero. -/
def xor_entries (entries : List (List Nat)) : List Nat :=
  entries.foldl (fun result entry => xor_into result entry) (List.replicate ENTRY_SIZE 0)

/-!
## Bucket index core (crates/inspire-core/src/bucket_index.rs)

Keccak-256 comes from the external `tiny_keccak` crate and is a parameter of
`compute_bucket_id`.  `Vec` indexing/`set` panics out of range in Rust; the
well-formedness invariants proved below keep every access in range, so
accesses are modelled with `getD`/`List.set`.
-/

/-- `NUM_BUCKETS = 2^18`. -/
def NUM_BUCKETS : Nat := 262144

/-- `compute_bucket_id`: first 18 bits of `keccak256(address || slot)`,
masked with `NUM_BUCKETS - 1`. -/
def compute_bucket_id (keccak : List Nat → List Nat) (address slot : List Nat) : Nat :=
  let hash := keccak (address ++ slot)
  (((hash.getD 0 0) <<< 10) ||| ((hash.getD 1 0) <<< 2) ||| ((hash.getD 2 0) >>> 6)) &&&
    (NUM_BUCKETS - 1)

/-- The running-sum loop body of `compute_cumulative`. -/
def compute_cumulative_aux (sum : Nat) : List Nat → List Nat
  | [] => []
  | c :: cs => (sum + c) :: compute_cumulative_aux (sum + c) cs

/-- `compute_cumulative`: push 0, then each running sum. -/
def compute_cumulative (counts : List Nat) : List Nat :=
  0 :: compute_cumulative_aux 0 counts

/-- `BucketRange`. -/
structure BucketRange where
  bucket_id : Nat
  start_index : Nat
  count : Nat
deriving DecidableEq

/-- `BucketDelta`: block number plus `(bucket_id, new_count)` updates. -/
structure BucketDelta where
  block_number : Nat
  updates : List (Nat × Nat)
deriving DecidableEq

/-- `BucketDeltaError`. -/
inductive BucketDeltaError where
  | HeaderTooShort (actual : Nat)
  | Truncated (expected actual : Nat)
  | TooManyUpdates (count : Nat)
deriving DecidableEq

/-- The parse loop of `BucketDelta::from_bytes`: read `n` updates of
`bucket_id(4 LE) || new_count(2 LE)` starting at `offset`. -/
def parseUpdates (data : List Nat) : Nat → Nat → List (Nat × Nat)
  | _, 0 => []
  | offset, n + 1 =>
    (fromLeBytes ((data.drop offset).take 4),
      fromLeBytes ((data.drop (offset + 4)).take 2)) ::
      parseUpdates data (offset + 6) n

/-- `BucketDelta::from_bytes`: header `block_number(8 LE) || update_count(4 LE)`,
cap on `update_count`, truncation check, then the payload parse.  The Rust
`checked_mul`/`checked_add` cannot overflow `Nat`, so the `ok_or` error path
is unreachable in the model, as it is on 64-bit targets once the
`NUM_BUCKETS` cap has passed. -/
def BucketDelta.from_bytes (data : List Nat) : Except BucketDeltaError BucketDelta :=
  if data.length < 12 then .error (.HeaderTooShort data.length)
  else
    let block_number := fromLeBytes (data.take 8)
    let update_count := fromLeBytes ((data.drop 8).take 4)
    if NUM_BUCKETS < update_count then .error (.TooManyUpdates update_count)
    else
      let payload_len := 12 + update_count * 6
      if data.length < payload_len then .error (.Truncated payload_len data.length)
      else .ok { block_number := block_number,
                 updates := parseUpdates data 12 update_count }

/-- `BucketDelta::to_bytes`: `block_number(8 LE) || len(4 LE) || updates`,
with each `bucket_id` cast `as u32` (hence truncated mod `2^32`). -/
def BucketDelta.to_bytes (d : BucketDelta) : List Nat :=
  leBytes 8 d.block_number ++ leBytes 4 d.updates.length ++
    (d.updates.map (fun u => leBytes 4 u.1 ++ leBytes 2 u.2)).flatten

/-!
## Range-delta directory (crates/inspire-core/src/bucket_index.rs, mod range_delta)
-/

/-- Magic bytes `"BDLT"`. -/
def MAGIC : List Nat := [0x42, 0x44, 0x4C, 0x54]

/-- `HEADER_SIZE = 64`. -/
def HEADER_SIZE : Nat := 64

/-- `RANGE_ENTRY_SIZE = 16`. -/
def RANGE_ENTRY_SIZE : Nat := 16

/-- `RangeDeltaHeader`. -/
structure RangeDeltaHeader where
  version : Nat
  current_block : Nat
  num_ranges : Nat
deriving DecidableEq

/-- `RangeDeltaHeader::to_bytes`: magic, version LE, current_block LE,
num_ranges LE, zero padding to 64 bytes. -/
def RangeDeltaHeader.to_bytes (h : RangeDeltaHeader) : List Nat :=
  MAGIC ++ leBytes 4 h.version ++ leBytes 8 h.current_block ++
    leBytes 4 h.num_ranges ++ List.replicate 44 0

/-- `RangeDeltaHeader::from_bytes`. -/
def RangeDeltaHeader.from_bytes (data : List Nat) : Option RangeDeltaHeader :=
  if data.length < HEADER_SIZE then none
  else if data.take 4 ≠ MAGIC then none
  else
    some { version := fromLeBytes ((data.drop 4).take 4),
           current_block := fromLeBytes ((data.drop 8).take 8),
           num_ranges := fromLeBytes ((data.drop 16).take 4) }

/-- `RangeEntry`. -/
structure RangeEntry where
  blocks_covered : Nat
  offset : Nat
  size : Nat
  entry_count : Nat
deriving DecidableEq

/-- `RangeEntry::to_bytes`: four u32 little-endian fields. -/
def RangeEntry.to_bytes (e : RangeEntry) : List Nat :=
  leBytes 4 e.blocks_covered ++ leBytes 4 e.offset ++ leBytes 4 e.size ++
    leBytes 4 e.entry_count

/-- `RangeEntry::from_bytes`. -/
def RangeEntry.from_bytes (data : List Nat) : Option RangeEntry :=
  if data.length < RANGE_ENTRY_SIZE then none
  else
    some { blocks_covered := fromLeBytes (data.take 4),
           offset := fromLeBytes ((data.drop 4).take 4),
           size := fromLeBytes ((data.drop 8).take 4),
           entry_count := fromLeBytes ((data.drop 12).take 4) }

/-- A `HashMap<usize, u16>` modelled as an association list with unique keys:
insert replaces the binding for `k` when present, else appends it. -/
def mapInsert (m : List (Nat × Nat)) (k v : Nat) : List (Nat × Nat) :=
  (m.filter (fun p => p.1 ≠ k)) ++ [(k, v)]

/-- The inner `HashMap::insert` loop over one delta's updates. -/
def insertAll (m : List (Nat × Nat)) (us : List (Nat × Nat)) : List (Nat × Nat) :=
  us.foldl (fun m u => mapInsert m u.1 u.2) m

/-- `merge_deltas` (mod `range_delta`): fold every update into the map with
latest-wins overwrite while tracking the max block number, then sort the
collected bindings by bucket id (Rust `sort_by_key`, a stable sort; keys are
unique, so any stable sort yields the same list). -/
def merge_deltas (deltas : List BucketDelta) : BucketDelta :=
  let st := deltas.foldl
    (fun st d => (insertAll st.1 d.updates, max st.2 d.block_number))
    (([] : List (Nat × Nat)), 0)
  { block_number := st.2,
    updates := st.1.insertionSort (fun p q => p.1 ≤ q.1) }

/-!
## Client bucket index (crates/inspire-client/src/bucket_index.rs)
-/

/-- `BucketIndex`: parallel `counts` / `cumulative` arrays. -/
structure BucketIndex where
  counts : List Nat
  cumulative : List Nat
deriving DecidableEq

/-- `BucketIndexError` (the variants reachable from `from_bytes`). -/
inductive BucketIndexError where
  | InvalidSize (expected actual : Nat)
deriving DecidableEq

/-- The `chunks_exact(2)` u16 little-endian parse of `BucketIndex::from_bytes`. -/
def parseCountsLE : List Nat → List Nat
  | b0 :: b1 :: rest => (b0 + 256 * b1) :: parseCountsLE rest
  | _ => []

/-- `BucketIndex::from_bytes`: exact-size check, parse counts, compute sums. -/
def BucketIndex.from_bytes (data : List Nat) : Except BucketIndexError BucketIndex :=
  if data.length ≠ NUM_BUCKETS * 2 then
    .error (.InvalidSize (NUM_BUCKETS * 2) data.length)
  else
    let counts := parseCountsLE data
    .ok { counts := counts, cumulative := compute_cumulative counts }

/-- `BucketIndex::lookup_bucket`. -/
def BucketIndex.lookup_bucket (keccak : List Nat → List Nat) (bi : BucketIndex)
    (address slot : List Nat) : BucketRange :=
  let bucket_id := compute_bucket_id keccak address slot
  { bucket_id := bucket_id,
    start_index := bi.cumulative.getD bucket_id 0,
    count := bi.counts.getD bucket_id 0 }

/-- `BucketIndex::total_entries`. -/
def BucketIndex.total_entries (bi : BucketIndex) : Nat :=
  bi.cumulative.getD NUM_BUCKETS 0

/-- The update loop of `BucketIndex::apply_delta`: write each in-range count
absolutely, skip ids `≥ NUM_BUCKETS`. -/
def applyUpdates (counts : List Nat) : List (Nat × Nat) → List Nat
  | [] => counts
  | (bucket_id, new_count) :: rest =>
    applyUpdates (if bucket_id < NUM_BUCKETS then counts.set bucket_id new_count else counts)
      rest

/-- `BucketIndex::apply_delta`: apply the updates, recompute all sums. -/
def BucketIndex.apply_delta (bi : BucketIndex) (delta : BucketDelta) : BucketIndex :=
  let counts := applyUpdates bi.counts delta.updates
  { counts := counts, cumulative := compute_cumulative counts }

/-!
## UBT keying (crates/inspire-core/src/ubt.rs)

Slots and tree indices are 32-byte big-endian byte strings.
-/

/-- `MAIN_STORAGE_OFFSET_BYTES`: `0x01` at byte 0, 31 zero bytes (i.e. `256^31`). -/
def MAIN_STORAGE_OFFSET_BYTES : List Nat :=
  1 :: List.replicate 31 0

/-- The byte loop of `add_with_offset`, working least-significant byte first
(the source iterates `(0..32).rev()` over big-endian arrays): each output
byte is `sum % 256`, the carry `sum / 256`. -/
def addBytesLE : List Nat → List Nat → Nat → List Nat
  | [], _, _ => []
  | _ :: _, [], _ => []
  | a :: as, b :: bs, carry =>
    (a + b + carry) % 256 :: addBytesLE as bs ((a + b + carry) / 256)

/-- `add_with_offset`: 256-bit big-endian addition, final carry discarded. -/
def add_with_offset (slot offset : List Nat) : List Nat :=
  (addBytesLE slot.reverse offset.reverse 0).reverse

/-- `compute_storage_tree_index`: small slots (top 31 bytes zero, low byte
< 64) go to the account stem at subindex `64 + slot`, larger slots are offset
by `256^31`. -/
def compute_storage_tree_index (slot : List Nat) : List Nat :=
  if (∀ b ∈ slot.take 31, b = 0) ∧ slot.getD 31 0 < 64 then
    List.replicate 31 0 ++ [64 + slot.getD 31 0]
  else
    add_with_offset slot MAIN_STORAGE_OFFSET_BYTES

/-- `pack_basic_data`: version 0, 4 reserved bytes, the low 3 bytes of
`code_size` big-endian, `nonce` BE u64, `balance` BE u128. -/
def pack_basic_data (nonce balance code_size : Nat) : List Nat :=
  List.replicate 5 0 ++ (beBytes 4 code_size).drop 1 ++ beBytes 8 nonce ++
    beBytes 16 balance

/-- Specification device: the value carried by the LAST update for key `k`
in an update stream (`none` when `k` never occurs).  This captures both the
final content of a latest-wins `HashMap` fold and the absolute-overwrite
semantics of `apply_delta`. -/
def lastVal : List (Nat × Nat) → Nat → Option Nat
  | [], _ => none
  | p :: rest, k =>
    match lastVal rest k with
    | some v => some v
    | none => if p.1 = k then some p.2 else none

/-- Totality of the by-key order used to sort merged updates. -/
instance : IsTotal (Nat × Nat) (fun p q => p.1 ≤ q.1) :=
  ⟨fun p q => Nat.le_total p.1 q.1⟩

/-- Transitivity of the by-key order used to sort merged updates. -/
instance : IsTrans (Nat × Nat) (fun p q => p.1 ≤ q.1) :=
  ⟨fun _ _ _ h h2 => Nat.le_trans h h2⟩


/-- Specification device: a `BucketIndex` is well formed when its counts
array has full length and its cumulative array is the recomputed sums. -/
def BucketIndexWF (bi : BucketIndex) : Prop :=
  bi.counts.length = NUM_BUCKETS ∧ bi.cumulative = compute_cumulative bi.counts


/-!
## Lemmas: byte codecs
-/

theorem leBytes_length (n v : Nat) : (leBytes n v).length = n := by
  induction n generalizing v with
  | zero => rfl
  | succ n ih => simp [leBytes, ih]

theorem fromLeBytes_leBytes (n v : Nat) : fromLeBytes (leBytes n v) = v % 256 ^ n := by
  induction n generalizing v with
  | zero => simp [leBytes, fromLeBytes, Nat.mod_one]
  | succ n ih =>
    simp only [leBytes, fromLeBytes, ih]
    rw [pow_succ, Nat.mul_comm (256 ^ n) 256, Nat.mod_mul]

theorem fromLeBytes_leBytes_of_lt {n v : Nat} (h : v < 256 ^ n) :
    fromLeBytes (leBytes n v) = v := by
  rw [fromLeBytes_leBytes, Nat.mod_eq_of_lt h]

theorem leBytes_mod (n v : Nat) : leBytes n (v % 256 ^ n) = leBytes n v := by
  induction n generalizing v with
  | zero => rfl
  | succ n ih =>
    simp only [leBytes]
    congr 1
    · rw [Nat.mod_mod_of_dvd]
      exact ⟨256 ^ n, by ring⟩
    · have : v % 256 ^ (n + 1) / 256 = v / 256 % 256 ^ n := by
        rw [pow_succ, Nat.mul_comm, Nat.mod_mul_right_div_self]
      rw [this, ih]

/-!
## Lemmas: hint algebra
-/

theorem xor_into_length (a b : List Nat) :
    (xor_into a b).length = min a.length b.length := by
  simp [xor_into]

theorem xor_into_self : ∀ e : List Nat, xor_into e e = List.replicate e.length 0
  | [] => rfl
  | x :: xs => by
    simp only [xor_into, List.zipWith_cons_cons, Nat.xor_self, List.length_cons,
      List.replicate_succ, List.cons.injEq, true_and]
    exact xor_into_self xs

theorem xor_into_assoc :
    ∀ a b c : List Nat, xor_into (xor_into a b) c = xor_into a (xor_into b c)
  | [], _, _ => rfl
  | _ :: _, [], _ => rfl
  | _ :: _, _ :: _, [] => rfl
  | x :: xs, y :: ys, z :: zs => by
    simp only [xor_into, List.zipWith_cons_cons, Nat.xor_assoc, List.cons.injEq, true_and]
    exact xor_into_assoc xs ys zs

theorem xor_into_comm (a b : List Nat) : xor_into a b = xor_into b a := by
  unfold xor_into
  induction a generalizing b with
  | nil => cases b <;> rfl
  | cons x xs ih =>
    cases b with
    | nil => rfl
    | cons y ys => simp [Nat.xor_comm, ih]

theorem nat_xor_double_cancel (a b c : Nat) : (((a ^^^ b) ^^^ c) ^^^ b) ^^^ c = a := by
  rw [Nat.xor_assoc (a ^^^ b) c b, Nat.xor_comm c b, ← Nat.xor_assoc (a ^^^ b) b c,
    Nat.xor_cancel_right, Nat.xor_cancel_right]

theorem update_hint_update_hint :
    ∀ h o n : List Nat, h.length = o.length → o.length = n.length →
      update_hint (update_hint h o n) o n = h
  | [], [], [], _, _ => rfl
  | x :: xs, y :: ys, z :: zs, hxy, hyz => by
    simp only [update_hint, xor_into, List.zipWith_cons_cons, nat_xor_double_cancel,
      List.cons.injEq, true_and]
    exact update_hint_update_hint xs ys zs (by simpa using hxy) (by simpa using hyz)

theorem xor_entries_length (S : List (List Nat)) (hS : ∀ x ∈ S, x.length = ENTRY_SIZE) :
    (xor_entries S).length = ENTRY_SIZE := by
  unfold xor_entries
  have main : ∀ (l : List (List Nat)) (acc : List Nat), acc.length = ENTRY_SIZE →
      (∀ x ∈ l, x.length = ENTRY_SIZE) →
      (l.foldl (fun result entry => xor_into result entry) acc).length = ENTRY_SIZE := by
    intro l
    induction l with
    | nil => intro acc hacc _; simpa using hacc
    | cons x xs ih =>
      intro acc hacc hl
      simp only [List.foldl_cons]
      exact ih _ (by simp [xor_into_length, hacc, hl x (by simp)])
        (fun y hy => hl y (by simp [hy]))
  exact main S _ (by simp) hS

/-- C2: the hint primitives over 32-byte entries satisfy the algebraic laws:
`recover_entry (xor_entries S) (xor_entries S)` is the zero entry;
`update_hint H old new = H XOR old XOR new` and a second application with the
same `(old, new)` restores `H`; `xor_into` is associative, commutative, and
nilpotent (`xor_into e e = 0`). -/
theorem hint_primitives_algebraic_laws (S : List (List Nat)) (H o n e : List Nat)
    (hS : ∀ x ∈ S, x.length = ENTRY_SIZE) (hH : H.length = ENTRY_SIZE)
    (ho : o.length = ENTRY_SIZE) (hn : n.length = ENTRY_SIZE) :
    recover_entry (xor_entries S) (xor_entries S) = List.replicate ENTRY_SIZE 0 ∧
    update_hint H o n = xor_into (xor_into H o) n ∧
    update_hint (update_hint H o n) o n = H ∧
    (∀ a b c : List Nat, xor_into (xor_into a b) c = xor_into a (xor_into b c)) ∧
    (∀ a b : List Nat, xor_into a b = xor_into b a) ∧
    xor_into e e = List.replicate e.length 0 := by
  refine ⟨?_, rfl, ?_, xor_into_assoc, xor_into_comm, xor_into_self e⟩
  · rw [recover_entry, xor_into_self, xor_entries_length S hS]
  · exact update_hint_update_hint H o n (hH.trans ho.symm) (ho.trans hn.symm)

/-- C2 witness: the laws at concrete 32-byte entries. -/
theorem hint_primitives_algebraic_laws_witness :
    recover_entry (xor_entries [List.replicate 32 1, List.replicate 32 2])
        (xor_entries [List.replicate 32 1, List.replicate 32 2]) =
      List.replicate ENTRY_SIZE 0 ∧
    update_hint (List.replicate 32 16) (List.replicate 32 1) (List.replicate 32 2) =
      xor_into (xor_into (List.replicate 32 16) (List.replicate 32 1))
        (List.replicate 32 2) ∧
    update_hint (update_hint (List.replicate 32 16) (List.replicate 32 1)
        (List.replicate 32 2)) (List.replicate 32 1) (List.replicate 32 2) =
      List.replicate 32 16 ∧
    (∀ a b c : List Nat, xor_into (xor_into a b) c = xor_into a (xor_into b c)) ∧
    (∀ a b : List Nat, xor_into a b = xor_into b a) ∧
    xor_into (List.replicate 32 66) (List.replicate 32 66) =
      List.replicate (List.replicate (α := Nat) 32 66).length 0 :=
  hint_primitives_algebraic_laws [List.replicate 32 1, List.replicate 32 2]
    (List.replicate 32 16) (List.replicate 32 1) (List.replicate 32 2)
    (List.replicate 32 66) (by decide) (by decide) (by decide) (by decide)

/-- C3: `BucketDelta::from_bytes` rejects hostile input: inputs shorter than
the 12-byte header give `HeaderTooShort`, a header `update_count` above
`NUM_BUCKETS` (so in particular `u32::MAX`) gives `TooManyUpdates`, and data
shorter than the expected payload length `12 + 6 * update_count` gives
`Truncated`.  (The Nat model has no overflow, matching the Rust checked
arithmetic, whose failure branch is unreachable under the cap.) -/
theorem bucket_delta_from_bytes_rejects_hostile_input (data : List Nat) :
    (data.length < 12 →
      BucketDelta.from_bytes data = .error (.HeaderTooShort data.length)) ∧
    (12 ≤ data.length →
      (NUM_BUCKETS < fromLeBytes ((data.drop 8).take 4) →
        BucketDelta.from_bytes data =
          .error (.TooManyUpdates (fromLeBytes ((data.drop 8).take 4)))) ∧
      (fromLeBytes ((data.drop 8).take 4) ≤ NUM_BUCKETS →
        data.length < 12 + fromLeBytes ((data.drop 8).take 4) * 6 →
        BucketDelta.from_bytes data =
          .error (.Truncated (12 + fromLeBytes ((data.drop 8).take 4) * 6)
            data.length))) := by
  refine ⟨fun hshort => ?_, fun hlong => ⟨fun hbig => ?_, fun hcap htrunc => ?_⟩⟩
  · simp [BucketDelta.from_bytes, hshort]
  · simp [BucketDelta.from_bytes, Nat.not_lt.mpr hlong, hbig]
  · simp [BucketDelta.from_bytes, Nat.not_lt.mpr hlong, Nat.not_lt.mpr hcap, htrunc]

/-- C3 witness: a 5-byte input, a header claiming `u32::MAX` updates, and a
header claiming one update with no payload, each rejected as stated. -/
theorem bucket_delta_from_bytes_rejects_hostile_input_witness :
    BucketDelta.from_bytes (List.replicate 5 0) =
      .error (.HeaderTooShort (List.replicate (α := Nat) 5 0).length) ∧
    BucketDelta.from_bytes (List.replicate 8 0 ++ [255, 255, 255, 255]) =
      .error (.TooManyUpdates (fromLeBytes
        (((List.replicate 8 0 ++ [255, 255, 255, 255]).drop 8).take 4))) ∧
    BucketDelta.from_bytes (List.replicate 8 0 ++ [1, 0, 0, 0]) =
      .error (.Truncated
        (12 + fromLeBytes (((List.replicate 8 0 ++ [1, 0, 0, 0]).drop 8).take 4) * 6)
        (List.replicate (α := Nat) 8 0 ++ [1, 0, 0, 0]).length) :=
  ⟨(bucket_delta_from_bytes_rejects_hostile_input (List.replicate 5 0)).1 (by decide),
   ((bucket_delta_from_bytes_rejects_hostile_input
      (List.replicate 8 0 ++ [255, 255, 255, 255])).2 (by decide)).1 (by decide),
   ((bucket_delta_from_bytes_rejects_hostile_input
      (List.replicate 8 0 ++ [1, 0, 0, 0])).2 (by decide)).2 (by decide) (by decide)⟩

/-!
## Lemmas: basic-data packing
-/

theorem leBytes_succ_append (n v : Nat) :
    leBytes (n + 1) v = leBytes n v ++ [v / 256 ^ n % 256] := by
  induction n generalizing v with
  | zero => simp [leBytes]
  | succ n ih =>
    show v % 256 :: leBytes (n + 1) (v / 256) = _
    rw [ih]
    simp only [leBytes, List.cons_append, List.cons.injEq, true_and]
    rw [Nat.div_div_eq_div_mul, ← pow_succ']

theorem beBytes_length (n v : Nat) : (beBytes n v).length = n := by
  simp [beBytes, leBytes_length]

theorem beBytes_succ_drop_one (n v : Nat) :
    (beBytes (n + 1) v).drop 1 = beBytes n v := by
  rw [beBytes, leBytes_succ_append]
  simp [beBytes]

theorem beBytes_mod (n v : Nat) : beBytes n (v % 256 ^ n) = beBytes n v := by
  rw [beBytes, leBytes_mod, beBytes]

/-- C9 counterexample: `pack_basic_data` does not reject `code_size = 2^24`;
it packs it, and the truncation to the low 3 bytes collides with
`code_size = 0` (both give `00 00 00` at bytes 5..8). -/
theorem pack_basic_data_does_not_reject_large_code_size :
    pack_basic_data 0 0 (2 ^ 24) = pack_basic_data 0 0 0 ∧
    ((pack_basic_data 0 0 (2 ^ 24)).drop 5).take 3 = [0, 0, 0] := by
  constructor <;> decide

/-- C9 (amended): `pack_basic_data(nonce, balance, code_size)` is the 32-byte
value with byte 0 = 0 (version), bytes 1-4 = 0 (reserved), bytes 5-7 =
`code_size mod 2^24` big-endian, bytes 8-15 = `nonce` big-endian u64, bytes
16-31 = `balance` big-endian u128; a `code_size ≥ 2^24` is silently truncated
to its low 24 bits, not rejected. -/
theorem pack_basic_data_layout (nonce balance code_size : Nat) :
    pack_basic_data nonce balance code_size =
      List.replicate 5 0 ++ (beBytes 3 (code_size % 2 ^ 24) ++
        (beBytes 8 nonce ++ beBytes 16 balance)) ∧
    (pack_basic_data nonce balance code_size).length = 32 ∧
    (pack_basic_data nonce balance code_size).take 5 = List.replicate 5 0 ∧
    ((pack_basic_data nonce balance code_size).drop 5).take 3 =
      beBytes 3 (code_size % 2 ^ 24) ∧
    ((pack_basic_data nonce balance code_size).drop 8).take 8 = beBytes 8 nonce ∧
    (pack_basic_data nonce balance code_size).drop 16 = beBytes 16 balance := by
  have hcs : (beBytes 4 code_size).drop 1 = beBytes 3 (code_size % 2 ^ 24) := by
    rw [show (2 : Nat) ^ 24 = 256 ^ 3 by norm_num, beBytes_mod, beBytes_succ_drop_one]
  have heq : pack_basic_data nonce balance code_size =
      List.replicate 5 0 ++ (beBytes 3 (code_size % 2 ^ 24) ++
        (beBytes 8 nonce ++ beBytes 16 balance)) := by
    rw [pack_basic_data, hcs]
    simp [List.append_assoc]
  refine ⟨heq, ?_, ?_, ?_, ?_, ?_⟩ <;> rw [heq]
  · simp [beBytes_length]
  · exact List.take_left' (by simp)
  · rw [List.drop_left' (by simp)]
    exact List.take_left' (beBytes_length 3 _)
  · rw [← List.append_assoc, List.drop_left' (by simp [beBytes_length]),
      List.take_left' (beBytes_length 8 nonce)]
  · rw [← List.append_assoc, ← List.append_assoc,
      List.drop_left' (by simp [beBytes_length])]

/-- C9 witness: scenario S4, `(nonce = 42, balance = 10^18, code_size = 1234)`
gives bytes `[5..8] = 00 04 d2`, `[8..16] = BE(42)`, `[16..32] = BE(10^18)`. -/
theorem pack_basic_data_layout_witness :
    (pack_basic_data 42 1000000000000000000 1234 =
      List.replicate 5 0 ++ (beBytes 3 (1234 % 2 ^ 24) ++
        (beBytes 8 42 ++ beBytes 16 1000000000000000000)) ∧
      (pack_basic_data 42 1000000000000000000 1234).length = 32 ∧
      (pack_basic_data 42 1000000000000000000 1234).take 5 = List.replicate 5 0 ∧
      ((pack_basic_data 42 1000000000000000000 1234).drop 5).take 3 =
        beBytes 3 (1234 % 2 ^ 24) ∧
      ((pack_basic_data 42 1000000000000000000 1234).drop 8).take 8 = beBytes 8 42 ∧
      (pack_basic_data 42 1000000000000000000 1234).drop 16 =
        beBytes 16 1000000000000000000) ∧
    ((pack_basic_data 42 1000000000000000000 1234).drop 5).take 3 = [0x00, 0x04, 0xd2] :=
  ⟨pack_basic_data_layout 42 1000000000000000000 1234, by decide⟩

/-!
## Lemmas: UBT storage tree index
-/

theorem addBytesLE_length :
    ∀ (a b : List Nat) (c : Nat), a.length = b.length →
      (addBytesLE a b c).length = a.length
  | [], _, _, _ => rfl
  | _ :: _, [], _, h => by simp at h
  | x :: xs, y :: ys, c, h => by
    simp only [addBytesLE, List.length_cons]
    rw [addBytesLE_length xs ys _ (by simpa using h)]

theorem fromLeBytes_addBytesLE :
    ∀ (a b : List Nat) (c : Nat), a.length = b.length →
      (∀ x ∈ a, x < 256) → (∀ x ∈ b, x < 256) → c ≤ 1 →
      fromLeBytes (addBytesLE a b c) =
        (fromLeBytes a + fromLeBytes b + c) % 256 ^ a.length
  | [], [], c, _, _, _, hc => by
    interval_cases c <;> simp [addBytesLE, fromLeBytes]
  | [], _ :: _, _, h, _, _, _ => by simp at h
  | _ :: _, [], _, h, _, _, _ => by simp at h
  | x :: xs, y :: ys, c, h, ha, hb, hc => by
    have hx : x < 256 := ha x (by simp)
    have hy : y < 256 := hb y (by simp)
    have hcarry : (x + y + c) / 256 ≤ 1 := by omega
    simp only [addBytesLE, fromLeBytes, List.length_cons]
    rw [fromLeBytes_addBytesLE xs ys _ (by simpa using h)
      (fun z hz => ha z (by simp [hz])) (fun z hz => hb z (by simp [hz])) hcarry]
    have hsplit : x + 256 * fromLeBytes xs + (y + 256 * fromLeBytes ys) + c =
        (x + y + c) + 256 * (fromLeBytes xs + fromLeBytes ys) := by ring
    rw [hsplit, pow_succ, Nat.mul_comm (256 ^ xs.length) 256, Nat.mod_mul,
      Nat.add_mul_mod_self_left, Nat.add_mul_div_left _ _ (by norm_num : (0 : Nat) < 256)]
    have : fromLeBytes xs + fromLeBytes ys + (x + y + c) / 256 =
        (x + y + c) / 256 + (fromLeBytes xs + fromLeBytes ys) := by ring
    rw [this]

theorem add_with_offset_length (slot offset : List Nat) (h : slot.length = offset.length) :
    (add_with_offset slot offset).length = slot.length := by
  rw [add_with_offset, List.length_reverse,
    addBytesLE_length _ _ _ (by simpa using h), List.length_reverse]

theorem fromBeBytes_add_with_offset (slot offset : List Nat)
    (h : slot.length = offset.length) (h1 : ∀ x ∈ slot, x < 256)
    (h2 : ∀ x ∈ offset, x < 256) :
    fromBeBytes (add_with_offset slot offset) =
      (fromBeBytes slot + fromBeBytes offset) % 256 ^ slot.length := by
  rw [add_with_offset, fromBeBytes, List.reverse_reverse,
    fromLeBytes_addBytesLE _ _ 0 (by simpa using h) (by simpa using h1)
      (by simpa using h2) (by norm_num)]
  simp [fromBeBytes]

/-- C4: `compute_storage_tree_index(slot)`: when the top 31 big-endian bytes
are zero and the low byte is below 64, the result is 31 zero bytes followed
by `64 + slot_low_byte`; otherwise it is the 256-bit sum of the slot and
`MAIN_STORAGE_OFFSET = 256^31`, read big-endian (top 31 bytes `stem_pos`,
low byte `subindex`). -/
theorem compute_storage_tree_index_spec (slot : List Nat) (hlen : slot.length = 32)
    (hbytes : ∀ b ∈ slot, b < 256) :
    ((∀ b ∈ slot.take 31, b = 0) → slot.getD 31 0 < 64 →
      compute_storage_tree_index slot = List.replicate 31 0 ++ [64 + slot.getD 31 0]) ∧
    (¬((∀ b ∈ slot.take 31, b = 0) ∧ slot.getD 31 0 < 64) →
      (compute_storage_tree_index slot).length = 32 ∧
      fromBeBytes (compute_storage_tree_index slot) =
        (fromBeBytes slot + 256 ^ 31) % 256 ^ 32) := by
  have hofflen : slot.length = MAIN_STORAGE_OFFSET_BYTES.length := by
    simp [MAIN_STORAGE_OFFSET_BYTES, hlen]
  have hoffbytes : ∀ x ∈ MAIN_STORAGE_OFFSET_BYTES, x < 256 := by decide
  have hoffval : fromBeBytes MAIN_STORAGE_OFFSET_BYTES = 256 ^ 31 := by decide
  constructor
  · intro hz hlow
    rw [compute_storage_tree_index, if_pos ⟨hz, hlow⟩]
  · intro hnot
    rw [compute_storage_tree_index, if_neg hnot]
    refine ⟨?_, ?_⟩
    · rw [add_with_offset_length _ _ hofflen, hlen]
    · rw [fromBeBytes_add_with_offset _ _ hofflen hbytes hoffbytes, hoffval, hlen]

/-- C4 witness: slot 5 lands in the account stem at subindex 69; slot 64 is
offset into the overflow stems, with byte 0 of the tree index equal to 1 and
subindex 64, and its big-endian value `256^31 + 64`. -/
theorem compute_storage_tree_index_spec_witness :
    compute_storage_tree_index (List.replicate 31 0 ++ [5]) =
      List.replicate 31 0 ++ [64 + (List.replicate (α := Nat) 31 0 ++ [5]).getD 31 0] ∧
    ((compute_storage_tree_index (List.replicate 31 0 ++ [64])).length = 32 ∧
      fromBeBytes (compute_storage_tree_index (List.replicate 31 0 ++ [64])) =
        (fromBeBytes (List.replicate 31 0 ++ [64]) + 256 ^ 31) % 256 ^ 32) ∧
    (compute_storage_tree_index (List.replicate 31 0 ++ [64])).getD 0 0 = 1 ∧
    (compute_storage_tree_index (List.replicate 31 0 ++ [64])).getD 31 0 = 64 :=
  ⟨(compute_storage_tree_index_spec (List.replicate 31 0 ++ [5]) (by decide)
      (by decide)).1 (by decide) (by decide),
   (compute_storage_tree_index_spec (List.replicate 31 0 ++ [64]) (by decide)
      (by decide)).2 (by decide),
   by decide, by decide⟩

/-!
## Lemmas: delta application
-/

theorem applyUpdates_length :
    ∀ (us : List (Nat × Nat)) (counts : List Nat),
      (applyUpdates counts us).length = counts.length
  | [], _ => rfl
  | (id, c) :: rest, counts => by
    rw [applyUpdates, applyUpdates_length rest]
    split <;> simp

theorem lastVal_eq_none_iff :
    ∀ (us : List (Nat × Nat)) (k : Nat), lastVal us k = none ↔ k ∉ us.map Prod.fst
  | [], k => by simp [lastVal]
  | p :: rest, k => by
    rw [lastVal]
    rcases h : lastVal rest k with _ | v
    · have := (lastVal_eq_none_iff rest k).mp h
      constructor
      · intro hif
        simp only [List.map_cons, List.mem_cons]
        rintro (rfl | hk)
        · simp at hif
        · exact this hk
      · intro hk
        rw [if_neg]
        intro hpk
        exact hk (by simp [hpk])
    · constructor
      · intro hc; cases hc
      · intro hk
        exfalso
        have : k ∈ rest.map Prod.fst := by
          by_contra hnk
          rw [(lastVal_eq_none_iff rest k).mpr hnk] at h
          cases h
        exact hk (by simp only [List.map_cons, List.mem_cons]; exact Or.inr this)

theorem applyUpdates_frame :
    ∀ (us : List (Nat × Nat)) (counts : List Nat) (i : Nat),
      i ∉ us.map Prod.fst → (applyUpdates counts us).getD i 0 = counts.getD i 0
  | [], _, _, _ => rfl
  | (id, c) :: rest, counts, i, hi => by
    have hne : id ≠ i := fun h => hi (by simp [h])
    have hrest : i ∉ rest.map Prod.fst := fun h => hi (by simp [h])
    rw [applyUpdates, applyUpdates_frame rest _ i hrest]
    split
    · simp [List.getElem?_set_ne hne]
    · rfl

theorem applyUpdates_lastVal :
    ∀ (us : List (Nat × Nat)) (counts : List Nat) (i c : Nat),
      i < NUM_BUCKETS → i < counts.length → lastVal us i = some c →
      (applyUpdates counts us).getD i 0 = c
  | [], _, _, _, _, _, hlast => by cases hlast
  | (id, v) :: rest, counts, i, c, hN, hlen, hlast => by
    rcases h : lastVal rest i with _ | v'
    · simp only [lastVal, h] at hlast
      split at hlast
      · rename_i hid
        injection hlast with hvc
        subst hvc
        have hid' : id = i := hid
        subst hid'
        rw [applyUpdates, if_pos hN,
          applyUpdates_frame rest _ id ((lastVal_eq_none_iff rest id).mp h)]
        simp [List.getElem?_set_self (by simpa using hlen)]
      · cases hlast
    · simp only [lastVal, h, Option.some.injEq] at hlast
      subst hlast
      rw [applyUpdates]
      have hlen' : i < (if id < NUM_BUCKETS then counts.set id v else counts).length := by
        split <;> simpa using hlen
      exact applyUpdates_lastVal rest _ i _ hN hlen' h

/-- C6: `apply_delta` writes each `(bucket_id, new_count)` update absolutely
(the last update for a bucket replaces its count outright), ignores updates
with `bucket_id ≥ NUM_BUCKETS`, leaves buckets not named in the delta
unchanged, and recomputes the whole cumulative array from the new counts. -/
theorem apply_delta_spec (bi : BucketIndex) (delta : BucketDelta) :
    (BucketIndex.apply_delta bi delta).counts = applyUpdates bi.counts delta.updates ∧
    (BucketIndex.apply_delta bi delta).cumulative =
      compute_cumulative (BucketIndex.apply_delta bi delta).counts ∧
    (∀ (id c : Nat) (rest : List (Nat × Nat)) (counts : List Nat), NUM_BUCKETS ≤ id →
      applyUpdates counts ((id, c) :: rest) = applyUpdates counts rest) ∧
    (∀ i : Nat, i ∉ delta.updates.map Prod.fst →
      (BucketIndex.apply_delta bi delta).counts.getD i 0 = bi.counts.getD i 0) ∧
    (∀ i c : Nat, i < NUM_BUCKETS → i < bi.counts.length →
      lastVal delta.updates i = some c →
      (BucketIndex.apply_delta bi delta).counts.getD i 0 = c) := by
  refine ⟨rfl, rfl, ?_, ?_, ?_⟩
  · intro id c rest counts hid
    rw [applyUpdates, if_neg (Nat.not_lt.mpr hid)]
  · intro i hi
    exact applyUpdates_frame delta.updates bi.counts i hi
  · intro i c hN hlen hlast
    exact applyUpdates_lastVal delta.updates bi.counts i c hN hlen hlast

/-- C6 witness: applying `{(0 ↦ 7), (999999 ignored), (0 ↦ 9)}` to counts
`[1, 2, 3]` sets bucket 0 to the last value 9, leaves bucket 1 at 2, and
recomputes the sums. -/
theorem apply_delta_spec_witness :
    (BucketIndex.apply_delta ⟨[1, 2, 3], compute_cumulative [1, 2, 3]⟩
        ⟨5, [(0, 7), (999999, 4), (0, 9)]⟩).counts =
      applyUpdates [1, 2, 3] [(0, 7), (999999, 4), (0, 9)] ∧
    (BucketIndex.apply_delta ⟨[1, 2, 3], compute_cumulative [1, 2, 3]⟩
        ⟨5, [(0, 7), (999999, 4), (0, 9)]⟩).counts.getD 1 0 = 2 ∧
    (BucketIndex.apply_delta ⟨[1, 2, 3], compute_cumulative [1, 2, 3]⟩
        ⟨5, [(0, 7), (999999, 4), (0, 9)]⟩).counts.getD 0 0 = 9 :=
  have h := apply_delta_spec ⟨[1, 2, 3], compute_cumulative [1, 2, 3]⟩
    ⟨5, [(0, 7), (999999, 4), (0, 9)]⟩
  ⟨h.1, h.2.2.2.1 1 (by decide), h.2.2.2.2 0 9 (by decide) (by decide) (by decide)⟩

/-!
## Lemmas: cumulative sums and bucket index invariants
-/

theorem compute_cumulative_aux_length :
    ∀ (c : List Nat) (s : Nat), (compute_cumulative_aux s c).length = c.length
  | [], _ => rfl
  | x :: xs, s => by
    simp only [compute_cumulative_aux, List.length_cons]
    rw [compute_cumulative_aux_length xs]

theorem compute_cumulative_length (c : List Nat) :
    (compute_cumulative c).length = c.length + 1 := by
  simp [compute_cumulative, compute_cumulative_aux_length]

theorem compute_cumulative_aux_getD :
    ∀ (c : List Nat) (s i : Nat), i < c.length →
      (compute_cumulative_aux s c).getD i 0 = s + (c.take (i + 1)).sum
  | [], _, i, h => by simp at h
  | x :: xs, s, 0, _ => by simp [compute_cumulative_aux]
  | x :: xs, s, i + 1, h => by
    simp only [compute_cumulative_aux, List.getD_cons_succ, List.take_succ_cons,
      List.sum_cons]
    rw [compute_cumulative_aux_getD xs (s + x) i (by simpa using h)]
    ring

theorem compute_cumulative_getD (c : List Nat) (i : Nat) (h : i ≤ c.length) :
    (compute_cumulative c).getD i 0 = (c.take i).sum := by
  cases i with
  | zero => simp [compute_cumulative]
  | succ j =>
    have hj : j < c.length := h
    simp only [compute_cumulative, List.getD_cons_succ]
    rw [compute_cumulative_aux_getD c 0 j hj, Nat.zero_add]

theorem sum_take_succ (c : List Nat) :
    ∀ i : Nat, i < c.length → (c.take (i + 1)).sum = (c.take i).sum + c.getD i 0 := by
  induction c with
  | nil => intro i h; simp at h
  | cons x xs ih =>
    intro i h
    cases i with
    | zero => simp
    | succ j =>
      simp only [List.take_succ_cons, List.sum_cons, List.getD_cons_succ]
      rw [ih j (by simpa using h)]
      ring

theorem sum_take_le_sum (c : List Nat) : ∀ i : Nat, (c.take i).sum ≤ c.sum := by
  induction c with
  | nil => intro i; simp
  | cons x xs ih =>
    intro i
    cases i with
    | zero => simp
    | succ j =>
      simp only [List.take_succ_cons, List.sum_cons]
      exact Nat.add_le_add_left (ih j) x

theorem sum_take_mono (c : List Nat) (i j : Nat) (h : i ≤ j) :
    (c.take i).sum ≤ (c.take j).sum := by
  have : c.take i = (c.take j).take i := by
    rw [List.take_take, Nat.min_eq_left h]
  rw [this]
  exact sum_take_le_sum (c.take j) i

theorem parseCountsLE_length : ∀ data : List Nat, (parseCountsLE data).length = data.length / 2
  | [] => by simp [parseCountsLE]
  | [_] => by simp [parseCountsLE]
  | _ :: _ :: rest => by
    show (parseCountsLE rest).length + 1 = _
    rw [parseCountsLE_length rest]
    simp only [List.length_cons]
    omega

theorem bucketIndex_from_bytes_wf (data : List Nat) (bi : BucketIndex)
    (h : BucketIndex.from_bytes data = .ok bi) : BucketIndexWF bi := by
  rw [BucketIndex.from_bytes] at h
  split at h
  · cases h
  · rename_i hlen
    rw [not_ne_iff] at hlen
    injection h with h
    subst h
    exact ⟨by rw [parseCountsLE_length, hlen]; rfl, rfl⟩

theorem apply_delta_wf (bi : BucketIndex) (d : BucketDelta) (h : BucketIndexWF bi) :
    BucketIndexWF (bi.apply_delta d) := by
  refine ⟨?_, rfl⟩
  show (applyUpdates bi.counts d.updates).length = NUM_BUCKETS
  rw [applyUpdates_length, h.1]

theorem foldl_apply_delta_wf (deltas : List BucketDelta) (bi : BucketIndex)
    (h : BucketIndexWF bi) :
    BucketIndexWF (deltas.foldl BucketIndex.apply_delta bi) := by
  induction deltas generalizing bi with
  | nil => exact h
  | cons d rest ih => exact ih _ (apply_delta_wf bi d h)

theorem compute_bucket_id_lt (keccak : List Nat → List Nat) (address slot : List Nat) :
    compute_bucket_id keccak address slot < NUM_BUCKETS :=
  Nat.lt_of_le_of_lt Nat.and_le_right (by norm_num [NUM_BUCKETS])

/-- C5: after `from_bytes` and any sequence of `apply_delta` calls, the
cumulative array satisfies `cumulative[0] = 0` and `cumulative[i+1] =
cumulative[i] + counts[i]`; every lookup returns `bucket_id < NUM_BUCKETS`
with `start_index = cumulative[bucket_id]`, `count = counts[bucket_id]`,
`start_index + count ≤ total_entries`, and `sum(counts) =
cumulative[NUM_BUCKETS]`. -/
theorem bucket_index_invariants (data : List Nat) (bi : BucketIndex)
    (hok : BucketIndex.from_bytes data = .ok bi) (deltas : List BucketDelta)
    (bi' : BucketIndex) (hbi' : bi' = deltas.foldl BucketIndex.apply_delta bi) :
    (bi'.cumulative.getD 0 0 = 0 ∧
      ∀ i : Nat, i < NUM_BUCKETS →
        bi'.cumulative.getD (i + 1) 0 = bi'.cumulative.getD i 0 + bi'.counts.getD i 0) ∧
    (∀ (keccak : List Nat → List Nat) (address slot : List Nat)
        (r : BucketRange), r = BucketIndex.lookup_bucket keccak bi' address slot →
      r.bucket_id < NUM_BUCKETS ∧
      r.start_index = bi'.cumulative.getD r.bucket_id 0 ∧
      r.count = bi'.counts.getD r.bucket_id 0 ∧
      r.start_index + r.count ≤ bi'.total_entries) ∧
    bi'.counts.sum = bi'.cumulative.getD NUM_BUCKETS 0 := by
  have hwf : BucketIndexWF bi' :=
    hbi' ▸ foldl_apply_delta_wf deltas bi (bucketIndex_from_bytes_wf data bi hok)
  obtain ⟨hlen, hcum⟩ := hwf
  have recurrence : ∀ i : Nat, i < NUM_BUCKETS →
      bi'.cumulative.getD (i + 1) 0 = bi'.cumulative.getD i 0 + bi'.counts.getD i 0 := by
    intro i hi
    rw [hcum, compute_cumulative_getD _ _ (by omega),
      compute_cumulative_getD _ _ (by omega), sum_take_succ _ i (by omega)]
  have htotal : bi'.counts.sum = bi'.cumulative.getD NUM_BUCKETS 0 := by
    rw [hcum, compute_cumulative_getD _ _ (by omega), ← hlen, List.take_length]
  refine ⟨⟨by rw [hcum]; rfl, recurrence⟩, ?_, htotal⟩
  intro keccak address slot r hr
  subst hr
  have hb : compute_bucket_id keccak address slot < NUM_BUCKETS :=
    compute_bucket_id_lt keccak address slot
  refine ⟨hb, rfl, rfl, ?_⟩
  show bi'.cumulative.getD (compute_bucket_id keccak address slot) 0 +
      bi'.counts.getD (compute_bucket_id keccak address slot) 0 ≤ bi'.total_entries
  rw [← recurrence _ hb, BucketIndex.total_entries, hcum,
    compute_cumulative_getD _ _ (by omega), compute_cumulative_getD _ _ (by omega)]
  exact sum_take_mono _ _ _ (by omega)

/-- C5 witness: the invariants for the index parsed from the all-zero
524288-byte blob, with no deltas applied, looked up with a trivial hash. -/
theorem bucket_index_invariants_witness :
    ((BucketIndex.from_bytes (List.replicate (NUM_BUCKETS * 2) 0)).toOption.isSome = true) ∧
    (∀ bi : BucketIndex,
      BucketIndex.from_bytes (List.replicate (NUM_BUCKETS * 2) 0) = .ok bi →
      bi.counts.sum = bi.cumulative.getD NUM_BUCKETS 0) := by
  have hok : BucketIndex.from_bytes (List.replicate (NUM_BUCKETS * 2) 0) =
      .ok ⟨parseCountsLE (List.replicate (NUM_BUCKETS * 2) 0),
        compute_cumulative (parseCountsLE (List.replicate (NUM_BUCKETS * 2) 0))⟩ := by
    rw [BucketIndex.from_bytes, if_neg (by simp)]
  refine ⟨by rw [hok]; rfl, ?_⟩
  intro bi hbi
  exact (bucket_index_invariants _ bi hbi [] bi rfl).2.2

/-!
## Lemmas: wire codec round trips
-/

theorem encodeUpdates_length (us : List (Nat × Nat)) :
    ((us.map (fun u => leBytes 4 u.1 ++ leBytes 2 u.2)).flatten).length = 6 * us.length := by
  induction us with
  | nil => rfl
  | cons u rest ih =>
    simp only [List.map_cons, List.flatten_cons, List.length_append, ih,
      List.length_cons, leBytes_length]
    omega

theorem parseUpdates_encode :
    ∀ (us : List (Nat × Nat)) (pre : List Nat),
      (∀ u ∈ us, u.1 < 2 ^ 32 ∧ u.2 < 2 ^ 16) →
      parseUpdates (pre ++ (us.map (fun u => leBytes 4 u.1 ++ leBytes 2 u.2)).flatten)
        pre.length us.length = us
  | [], _, _ => rfl
  | (id, c) :: rest, pre, hu => by
    have hid : id < 256 ^ 4 := by
      have := (hu (id, c) (by simp)).1
      norm_num at this ⊢
      omega
    have hc : c < 256 ^ 2 := by
      have := (hu (id, c) (by simp)).2
      norm_num at this ⊢
      omega
    have hgroup : (((id, c) :: rest).map (fun u => leBytes 4 u.1 ++ leBytes 2 u.2)).flatten =
        leBytes 4 id ++ (leBytes 2 c ++
          (rest.map (fun u => leBytes 4 u.1 ++ leBytes 2 u.2)).flatten) := by
      simp [List.append_assoc]
    rw [List.length_cons, parseUpdates, hgroup]
    refine congrArg₂ _ ?_ ?_
    · rw [List.drop_left' rfl, List.take_left' (leBytes_length 4 id),
        fromLeBytes_leBytes_of_lt hid, ← List.append_assoc,
        List.drop_left' (by simp [leBytes_length]),
        List.take_left' (leBytes_length 2 c), fromLeBytes_leBytes_of_lt hc]
    · have hre : pre ++ (leBytes 4 id ++ (leBytes 2 c ++
          (rest.map (fun u => leBytes 4 u.1 ++ leBytes 2 u.2)).flatten)) =
          (pre ++ leBytes 4 id ++ leBytes 2 c) ++
            (rest.map (fun u => leBytes 4 u.1 ++ leBytes 2 u.2)).flatten := by
        simp [List.append_assoc]
      have hplen : (pre ++ leBytes 4 id ++ leBytes 2 c).length = pre.length + 6 := by
        simp [leBytes_length]
      rw [hre, ← hplen, parseUpdates_encode rest _ (fun u huu => hu u (by simp [huu]))]

theorem bucket_delta_to_bytes_grouped (d : BucketDelta) :
    d.to_bytes = leBytes 8 d.block_number ++ (leBytes 4 d.updates.length ++
      (d.updates.map (fun u => leBytes 4 u.1 ++ leBytes 2 u.2)).flatten) := by
  rw [BucketDelta.to_bytes, List.append_assoc]

theorem bucket_delta_to_bytes_length (d : BucketDelta) :
    d.to_bytes.length = 12 + d.updates.length * 6 := by
  rw [BucketDelta.to_bytes, List.length_append, List.length_append, leBytes_length,
    leBytes_length, encodeUpdates_length]
  omega

theorem bucket_delta_round_trip (d : BucketDelta) (hbn : d.block_number < 2 ^ 64)
    (hlen : d.updates.length ≤ NUM_BUCKETS)
    (hupd : ∀ u ∈ d.updates, u.1 < 2 ^ 32 ∧ u.2 < 2 ^ 16) :
    BucketDelta.from_bytes d.to_bytes = .ok d := by
  have hbn' : d.block_number < 256 ^ 8 := by norm_num; omega
  have hcount' : d.updates.length < 256 ^ 4 := by
    have : NUM_BUCKETS < 256 ^ 4 := by norm_num [NUM_BUCKETS]
    omega
  have hdatalen := bucket_delta_to_bytes_length d
  have htake8 : d.to_bytes.take 8 = leBytes 8 d.block_number := by
    rw [bucket_delta_to_bytes_grouped, List.take_left' (leBytes_length 8 _)]
  have hdrop8 : d.to_bytes.drop 8 = leBytes 4 d.updates.length ++
      (d.updates.map (fun u => leBytes 4 u.1 ++ leBytes 2 u.2)).flatten := by
    rw [bucket_delta_to_bytes_grouped, List.drop_left' (leBytes_length 8 _)]
  have hcount : fromLeBytes ((d.to_bytes.drop 8).take 4) = d.updates.length := by
    rw [hdrop8, List.take_left' (leBytes_length 4 _), fromLeBytes_leBytes_of_lt hcount']
  rw [BucketDelta.from_bytes, if_neg (by omega),
    if_neg (by rw [hcount]; exact Nat.not_lt.mpr hlen), if_neg (by rw [hcount]; omega)]
  refine congrArg _ ?_
  refine congrArg₂ _ ?_ ?_
  · rw [htake8, fromLeBytes_leBytes_of_lt hbn']
  · rw [hcount, bucket_delta_to_bytes_grouped, ← List.append_assoc]
    have hpre : (leBytes 8 d.block_number ++ leBytes 4 d.updates.length).length = 12 := by
      simp [leBytes_length]
    rw [← hpre, parseUpdates_encode d.updates _ hupd]

theorem range_delta_header_round_trip (h : RangeDeltaHeader) (hv : h.version < 2 ^ 32)
    (hcb : h.current_block < 2 ^ 64) (hnr : h.num_ranges < 2 ^ 32) :
    RangeDeltaHeader.from_bytes h.to_bytes = some h := by
  have hv' : h.version < 256 ^ 4 := by norm_num; omega
  have hcb' : h.current_block < 256 ^ 8 := by norm_num; omega
  have hnr' : h.num_ranges < 256 ^ 4 := by norm_num; omega
  have hgroup : h.to_bytes = MAGIC ++ (leBytes 4 h.version ++ (leBytes 8 h.current_block ++
      (leBytes 4 h.num_ranges ++ List.replicate 44 0))) := by
    rw [RangeDeltaHeader.to_bytes]
    simp [List.append_assoc]
  have hlen : h.to_bytes.length = 64 := by
    rw [hgroup]
    simp [MAGIC, leBytes_length]
  rw [RangeDeltaHeader.from_bytes, if_neg (by rw [hlen]; norm_num [HEADER_SIZE]),
    if_neg (by rw [hgroup, List.take_left' (by rw [MAGIC]; rfl)]; exact not_ne_iff.mpr rfl)]
  refine congrArg _ ?_
  have h4 : (h.to_bytes.drop 4).take 4 = leBytes 4 h.version := by
    rw [hgroup, List.drop_left' (by rw [MAGIC]; rfl), List.take_left' (leBytes_length 4 _)]
  have h8 : (h.to_bytes.drop 8).take 8 = leBytes 8 h.current_block := by
    rw [hgroup, ← List.append_assoc, List.drop_left' (by simp [MAGIC, leBytes_length]),
      List.take_left' (leBytes_length 8 _)]
  have h16 : (h.to_bytes.drop 16).take 4 = leBytes 4 h.num_ranges := by
    rw [hgroup, ← List.append_assoc, ← List.append_assoc,
      List.drop_left' (by simp [MAGIC, leBytes_length]),
      List.take_left' (leBytes_length 4 _)]
  rw [h4, h8, h16, fromLeBytes_leBytes_of_lt hv', fromLeBytes_leBytes_of_lt hcb',
    fromLeBytes_leBytes_of_lt hnr']

theorem range_entry_round_trip (e : RangeEntry) (h1 : e.blocks_covered < 2 ^ 32)
    (h2 : e.offset < 2 ^ 32) (h3 : e.size < 2 ^ 32) (h4 : e.entry_count < 2 ^ 32) :
    RangeEntry.from_bytes e.to_bytes = some e := by
  have h1' : e.blocks_covered < 256 ^ 4 := by norm_num; omega
  have h2' : e.offset < 256 ^ 4 := by norm_num; omega
  have h3' : e.size < 256 ^ 4 := by norm_num; omega
  have h4' : e.entry_count < 256 ^ 4 := by norm_num; omega
  have hgroup : e.to_bytes = leBytes 4 e.blocks_covered ++ (leBytes 4 e.offset ++
      (leBytes 4 e.size ++ leBytes 4 e.entry_count)) := by
    rw [RangeEntry.to_bytes]
    simp [List.append_assoc]
  have hlen : e.to_bytes.length = 16 := by
    rw [hgroup]
    simp [leBytes_length]
  rw [RangeEntry.from_bytes, if_neg (by rw [hlen]; norm_num [RANGE_ENTRY_SIZE])]
  refine congrArg _ ?_
  have e0 : e.to_bytes.take 4 = leBytes 4 e.blocks_covered := by
    rw [hgroup, List.take_left' (leBytes_length 4 _)]
  have e4 : (e.to_bytes.drop 4).take 4 = leBytes 4 e.offset := by
    rw [hgroup, List.drop_left' (leBytes_length 4 _), List.take_left' (leBytes_length 4 _)]
  have e8 : (e.to_bytes.drop 8).take 4 = leBytes 4 e.size := by
    rw [hgroup, ← List.append_assoc, List.drop_left' (by simp [leBytes_length]),
      List.take_left' (leBytes_length 4 _)]
  have e12 : (e.to_bytes.drop 12).take 4 = leBytes 4 e.entry_count := by
    rw [hgroup, ← List.append_assoc, ← List.append_assoc,
      List.drop_left' (by simp [leBytes_length]),
      List.take_of_length_le (by rw [leBytes_length])]
  rw [e0, e4, e8, e12, fromLeBytes_leBytes_of_lt h1', fromLeBytes_leBytes_of_lt h2',
    fromLeBytes_leBytes_of_lt h3', fromLeBytes_leBytes_of_lt h4']

/-- C8 counterexample: the round trip fails as universally stated, because
`to_bytes` truncates each `bucket_id` with `as u32`: the delta with the
single update `(2^32, 0)` decodes back to `(0, 0)`. -/
theorem bucket_delta_round_trip_fails_on_large_id :
    BucketDelta.from_bytes (BucketDelta.to_bytes ⟨0, [(2 ^ 32, 0)]⟩) ≠
      .ok ⟨0, [(2 ^ 32, 0)]⟩ := by
  intro hcontra
  have heval : BucketDelta.from_bytes (BucketDelta.to_bytes ⟨0, [(2 ^ 32, 0)]⟩) =
      .ok ⟨0, [(0, 0)]⟩ := by rfl
  rw [heval] at hcontra
  have hcontra' : (⟨0, [(0, 0)]⟩ : BucketDelta) = ⟨0, [(2 ^ 32, 0)]⟩ := by
    injection hcontra
  exact absurd hcontra' (by decide)

/-- C8 (amended): the wire codecs round-trip for representable values: a
`BucketDelta` whose `updates` fit the wire (each `bucket_id < 2^32`, at most
`NUM_BUCKETS` updates; counts and block number are u16/u64 by type), and any
`RangeDeltaHeader` / `RangeEntry` with their declared u32/u64 field widths. -/
theorem codec_round_trips (d : BucketDelta) (h : RangeDeltaHeader) (e : RangeEntry)
    (hbn : d.block_number < 2 ^ 64) (hlen : d.updates.length ≤ NUM_BUCKETS)
    (hupd : ∀ u ∈ d.updates, u.1 < 2 ^ 32 ∧ u.2 < 2 ^ 16)
    (hv : h.version < 2 ^ 32) (hcb : h.current_block < 2 ^ 64)
    (hnr : h.num_ranges < 2 ^ 32) (he1 : e.blocks_covered < 2 ^ 32)
    (he2 : e.offset < 2 ^ 32) (he3 : e.size < 2 ^ 32) (he4 : e.entry_count < 2 ^ 32) :
    BucketDelta.from_bytes d.to_bytes = .ok d ∧
    RangeDeltaHeader.from_bytes h.to_bytes = some h ∧
    RangeEntry.from_bytes e.to_bytes = some e :=
  ⟨bucket_delta_round_trip d hbn hlen hupd,
   range_delta_header_round_trip h hv hcb hnr,
   range_entry_round_trip e he1 he2 he3 he4⟩

/-- C8 witness: the round trips at concrete representable values. -/
theorem codec_round_trips_witness :
    BucketDelta.from_bytes (BucketDelta.to_bytes ⟨12345, [(0, 15), (100, 20)]⟩) =
      .ok ⟨12345, [(0, 15), (100, 20)]⟩ ∧
    RangeDeltaHeader.from_bytes (RangeDeltaHeader.to_bytes ⟨1, 12345678, 5⟩) =
      some ⟨1, 12345678, 5⟩ ∧
    RangeEntry.from_bytes (RangeEntry.to_bytes ⟨100, 1024, 4096, 50⟩) =
      some ⟨100, 1024, 4096, 50⟩ :=
  codec_round_trips ⟨12345, [(0, 15), (100, 20)]⟩ ⟨1, 12345678, 5⟩ ⟨100, 1024, 4096, 50⟩
    (by decide) (by decide) (by decide) (by decide) (by decide) (by decide) (by decide)
    (by decide) (by decide) (by decide)

/-!
## Lemmas: delta merging
-/

theorem lastVal_append_some :
    ∀ (xs ys : List (Nat × Nat)) (k v : Nat), lastVal ys k = some v →
      lastVal (xs ++ ys) k = some v
  | [], _, _, _, h => h
  | p :: xs, ys, k, v, h => by
    show lastVal (p :: (xs ++ ys)) k = some v
    simp only [lastVal, lastVal_append_some xs ys k v h]

theorem lastVal_append_none :
    ∀ (xs ys : List (Nat × Nat)) (k : Nat), lastVal ys k = none →
      lastVal (xs ++ ys) k = lastVal xs k
  | [], ys, k, h => by simpa [lastVal] using h
  | p :: xs, ys, k, h => by
    show lastVal (p :: (xs ++ ys)) k = lastVal (p :: xs) k
    simp only [lastVal, lastVal_append_none xs ys k h]

theorem lastVal_filter_ne :
    ∀ (m : List (Nat × Nat)) (k k' : Nat), k' ≠ k →
      lastVal (m.filter (fun p => p.1 ≠ k)) k' = lastVal m k'
  | [], _, _, _ => rfl
  | p :: m, k, k', hkk => by
    by_cases hp : p.1 ≠ k
    · rw [List.filter_cons_of_pos (by simpa using hp)]
      simp only [lastVal, lastVal_filter_ne m k k' hkk]
    · rw [List.filter_cons_of_neg (by simpa using hp)]
      rw [not_ne_iff] at hp
      rw [lastVal_filter_ne m k k' hkk, lastVal]
      rcases h : lastVal m k' with _ | v
      · rw [if_neg (by rw [hp]; exact fun hc => hkk hc.symm)]
      · rfl

theorem lastVal_singleton (k v k' : Nat) :
    lastVal [(k, v)] k' = if k = k' then some v else none := rfl

theorem lastVal_mapInsert (m : List (Nat × Nat)) (k v k' : Nat) :
    lastVal (mapInsert m k v) k' = if k' = k then some v else lastVal m k' := by
  rw [mapInsert]
  by_cases hkk : k' = k
  · subst hkk
    rw [if_pos rfl, lastVal_append_some _ _ _ v (by rw [lastVal_singleton, if_pos rfl])]
  · rw [if_neg hkk,
      lastVal_append_none _ _ _ (by rw [lastVal_singleton, if_neg (fun hc => hkk hc.symm)]),
      lastVal_filter_ne m k k' hkk]

theorem lastVal_insertAll :
    ∀ (us m : List (Nat × Nat)) (k : Nat),
      lastVal (insertAll m us) k =
        match lastVal us k with
        | some v => some v
        | none => lastVal m k
  | [], _, _ => rfl
  | (a, b) :: rest, m, k => by
    show lastVal (insertAll (mapInsert m a b) rest) k = _
    rw [lastVal_insertAll rest (mapInsert m a b) k]
    rcases hrest : lastVal rest k with _ | v'
    · rw [lastVal_mapInsert]
      by_cases hak : a = k
      · simp only [lastVal, hrest, if_pos hak, if_pos hak.symm]
      · have hka : ¬k = a := fun hc => hak hc.symm
        simp only [lastVal, hrest, if_neg hak, if_neg hka]
    · simp only [lastVal, hrest]

theorem mapInsert_keys_nodup (m : List (Nat × Nat)) (k v : Nat)
    (h : (m.map Prod.fst).Nodup) : ((mapInsert m k v).map Prod.fst).Nodup := by
  rw [mapInsert, List.map_append]
  refine List.Nodup.append ?_ (by simp) ?_
  · exact ((List.filter_sublist m).map Prod.fst).nodup h
  · intro a ha hb
    simp only [List.map_cons, List.map_nil, List.mem_singleton] at hb
    subst hb
    obtain ⟨p, hp, hpa⟩ := List.mem_map.mp ha
    have hfil := List.of_mem_filter hp
    rw [decide_eq_true_eq] at hfil
    exact hfil (by rw [hpa])

theorem insertAll_keys_nodup :
    ∀ (us m : List (Nat × Nat)), (m.map Prod.fst).Nodup →
      ((insertAll m us).map Prod.fst).Nodup
  | [], _, h => h
  | (a, b) :: rest, m, h =>
    insertAll_keys_nodup rest (mapInsert m a b) (mapInsert_keys_nodup m a b h)

theorem mem_iff_lastVal :
    ∀ (m : List (Nat × Nat)), (m.map Prod.fst).Nodup →
      ∀ k v : Nat, ((k, v) ∈ m ↔ lastVal m k = some v)
  | [], _, k, v => by simp [lastVal]
  | p :: rest, h, k, v => by
    have hh : p.1 ∉ rest.map Prod.fst ∧ (rest.map Prod.fst).Nodup := by
      rw [List.map_cons, List.nodup_cons] at h
      exact h
    rcases hl : lastVal rest k with _ | v'
    · have hknot : k ∉ rest.map Prod.fst := (lastVal_eq_none_iff rest k).mp hl
      have hmem : (k, v) ∉ rest := fun hc => hknot (List.mem_map.mpr ⟨(k, v), hc, rfl⟩)
      simp only [lastVal, hl, List.mem_cons]
      by_cases hpk : p.1 = k
      · rw [if_pos hpk]
        constructor
        · rintro (hc | hc)
          · rw [← hc]
          · exact absurd hc hmem
        · intro hc
          injection hc with hc
          left
          rw [← hpk, ← hc]
      · rw [if_neg hpk]
        constructor
        · rintro (hc | hc)
          · exact absurd (congrArg Prod.fst hc).symm hpk
          · exact absurd hc hmem
        · intro hc; cases hc
    · have hkmem : k ∈ rest.map Prod.fst := by
        by_contra hc
        rw [(lastVal_eq_none_iff rest k).mpr hc] at hl
        cases hl
      have hpne : (k, v) ≠ p := by
        intro hc
        rw [← hc] at hh
        exact hh.1 hkmem
      simp only [lastVal, hl, List.mem_cons]
      rw [or_iff_right hpne, mem_iff_lastVal rest hh.2 k v, hl]

theorem insertAll_append (m us vs : List (Nat × Nat)) :
    insertAll m (us ++ vs) = insertAll (insertAll m us) vs := by
  rw [insertAll, insertAll, insertAll, List.foldl_append]

theorem merge_foldl_eq :
    ∀ (deltas : List BucketDelta) (m : List (Nat × Nat)) (b : Nat),
      deltas.foldl (fun st d => (insertAll st.1 d.updates, max st.2 d.block_number)) (m, b) =
        (insertAll m ((deltas.map BucketDelta.updates).flatten),
          (deltas.map BucketDelta.block_number).foldl max b)
  | [], _, _ => rfl
  | d :: rest, m, b => by
    show rest.foldl _ (insertAll m d.updates, max b d.block_number) = _
    rw [merge_foldl_eq rest]
    simp only [List.map_cons, List.flatten_cons, List.foldl_cons]
    rw [insertAll_append]

theorem foldl_max_le (l : List Nat) :
    ∀ b : Nat, b ≤ l.foldl max b ∧ ∀ x ∈ l, x ≤ l.foldl max b := by
  induction l with
  | nil => intro b; exact ⟨Nat.le_refl b, by simp⟩
  | cons x xs ih =>
    intro b
    have h := ih (max b x)
    refine ⟨Nat.le_trans (Nat.le_max_left b x) h.1, ?_⟩
    intro y hy
    rcases List.mem_cons.mp hy with rfl | hy
    · exact Nat.le_trans (Nat.le_max_right b y) h.1
    · exact h.2 y hy

theorem foldl_max_cases :
    ∀ (l : List Nat) (b : Nat), l.foldl max b = b ∨ l.foldl max b ∈ l
  | [], _ => Or.inl rfl
  | x :: rest, b => by
    rcases foldl_max_cases rest (max b x) with h | h
    · rcases max_choice b x with hm | hm
      · exact Or.inl (by rw [List.foldl_cons, h, hm])
      · refine Or.inr ?_
        rw [List.foldl_cons, h, hm]
        exact List.mem_cons_self x rest
    · exact Or.inr (List.mem_cons_of_mem x h)

theorem foldl_max_zero_mem (l : List Nat) (h : l ≠ []) : l.foldl max 0 ∈ l := by
  cases l with
  | nil => exact absurd rfl h
  | cons x rest =>
    show rest.foldl max (max 0 x) ∈ x :: rest
    rw [Nat.max_eq_right (Nat.zero_le x)]
    rcases foldl_max_cases rest x with h2 | h2
    · rw [h2]
      exact List.mem_cons_self x rest
    · exact List.mem_cons_of_mem x h2

/-- C7: `merge_deltas` returns the maximum input block number, a strictly
ascending (hence duplicate-free) updates list, and latest-wins per bucket id:
`(k, v)` is in the merged updates exactly when `v` is the value of the last
update for `k` across the concatenated inputs. -/
theorem merge_deltas_spec (deltas : List BucketDelta) :
    (∀ d ∈ deltas, d.block_number ≤ (merge_deltas deltas).block_number) ∧
    (deltas ≠ [] →
      ∃ d ∈ deltas, (merge_deltas deltas).block_number = d.block_number) ∧
    (merge_deltas deltas).updates.Pairwise (fun p q => p.1 < q.1) ∧
    (∀ k v : Nat, ((k, v) ∈ (merge_deltas deltas).updates ↔
      lastVal ((deltas.map BucketDelta.updates).flatten) k = some v)) := by
  have hst := merge_foldl_eq deltas [] 0
  have hbn : (merge_deltas deltas).block_number =
      (deltas.map BucketDelta.block_number).foldl max 0 := by
    rw [merge_deltas, hst]
  have hupd : (merge_deltas deltas).updates =
      (insertAll [] ((deltas.map BucketDelta.updates).flatten)).insertionSort
        (fun p q => p.1 ≤ q.1) := by
    rw [merge_deltas, hst]
  have hnodup : ((insertAll [] ((deltas.map BucketDelta.updates).flatten)).map
      Prod.fst).Nodup :=
    insertAll_keys_nodup _ [] (by simp)
  have hperm := List.perm_insertionSort (fun p q : Nat × Nat => p.1 ≤ q.1)
    (insertAll [] ((deltas.map BucketDelta.updates).flatten))
  refine ⟨?_, ?_, ?_, ?_⟩
  · intro d hd
    rw [hbn]
    exact (foldl_max_le _ 0).2 d.block_number (List.mem_map.mpr ⟨d, hd, rfl⟩)
  · intro hne
    rw [hbn]
    have hmap : deltas.map BucketDelta.block_number ≠ [] := by
      simpa using hne
    obtain ⟨d, hd, hdeq⟩ := List.mem_map.mp (foldl_max_zero_mem _ hmap)
    exact ⟨d, hd, hdeq.symm⟩
  · rw [hupd]
    have hsorted : ((insertAll [] ((deltas.map BucketDelta.updates).flatten)).insertionSort
        (fun p q => p.1 ≤ q.1)).Pairwise (fun p q => p.1 ≤ q.1) :=
      List.sorted_insertionSort _ _
    have hnodup' : (((insertAll [] ((deltas.map BucketDelta.updates).flatten)).insertionSort
        (fun p q => p.1 ≤ q.1)).map Prod.fst).Nodup :=
      ((hperm.map Prod.fst).nodup_iff).mpr hnodup
    have hne' := List.pairwise_map.mp hnodup'
    exact (hsorted.and hne').imp (fun h => Nat.lt_of_le_of_ne h.1 h.2)
  · intro k v
    rw [hupd, hperm.mem_iff, mem_iff_lastVal _ hnodup, lastVal_insertAll]
    rcases lastVal ((deltas.map BucketDelta.updates).flatten) k with _ | w <;> rfl

/-- C7 witness: the S3 scenario: merging `{block 100: (0,10),(1,20)}` with
`{block 101: (1,25),(2,30)}` yields `{block 101: (0,10),(1,25),(2,30)}`,
sorted by bucket id, and the merged block number is one of the inputs. -/
theorem merge_deltas_spec_witness :
    merge_deltas [⟨100, [(0, 10), (1, 20)]⟩, ⟨101, [(1, 25), (2, 30)]⟩] =
      ⟨101, [(0, 10), (1, 25), (2, 30)]⟩ ∧
    (∃ d ∈ [(⟨100, [(0, 10), (1, 20)]⟩ : BucketDelta), ⟨101, [(1, 25), (2, 30)]⟩],
      (merge_deltas [⟨100, [(0, 10), (1, 20)]⟩, ⟨101, [(1, 25), (2, 30)]⟩]).block_number =
        d.block_number) ∧
    ((1 : Nat), (25 : Nat)) ∈
      (merge_deltas [⟨100, [(0, 10), (1, 20)]⟩, ⟨101, [(1, 25), (2, 30)]⟩]).updates :=
  ⟨by decide,
   (merge_deltas_spec [⟨100, [(0, 10), (1, 20)]⟩, ⟨101, [(1, 25), (2, 30)]⟩]).2.1
     (by decide),
   ((merge_deltas_spec [⟨100, [(0, 10), (1, 20)]⟩, ⟨101, [(1, 25), (2, 30)]⟩]).2.2.2
     1 25).mpr (by decide)⟩

/-!
## Lemmas: subset expansion
-/

theorem generate_index_lt (p : Prf) (counter idx : Nat) (hd : 0 < p.domain_size)
    (h : p.generate_index counter = some idx) : idx < p.domain_size := by
  rw [Prf.generate_index, if_neg (Nat.pos_iff_ne_zero.mp hd)] at h
  injection h with h
  rw [← h]
  exact Nat.mod_lt _ hd

theorem nodup_snoc_of_not_mem (acc : List Nat) (idx : Nat) (hnd : acc.Nodup)
    (hmem : idx ∉ acc) : (acc ++ [idx]).Nodup := by
  simp [List.nodup_append, hnd, hmem]

theorem sorted_subset_exit (acc : List Nat) (size d : Nat) (hnd : acc.Nodup)
    (hbound : ∀ x ∈ acc, x < d) (hlen : acc.length = size) :
    (acc.insertionSort (· ≤ ·)).Sorted (· < ·) ∧
    (acc.insertionSort (· ≤ ·)).Nodup ∧
    (acc.insertionSort (· ≤ ·)).length = size ∧
    ∀ x ∈ acc.insertionSort (· ≤ ·), x < d := by
  have hperm := List.perm_insertionSort (· ≤ ·) acc
  have hnd' : (acc.insertionSort (· ≤ ·)).Nodup := hperm.nodup_iff.mpr hnd
  have hsorted : (acc.insertionSort (· ≤ ·)).Sorted (· ≤ ·) :=
    List.sorted_insertionSort _ _
  refine ⟨hsorted.lt_of_le hnd', hnd', ?_, ?_⟩
  · rw [List.length_insertionSort, hlen]
  · intro x hx
    exact hbound x (hperm.mem_iff.mp hx)

theorem generate_subsetAux_spec (p : Prf) (size : Nat) :
    ∀ (fuel counter : Nat) (acc l : List Nat),
      0 < p.domain_size → acc.Nodup → (∀ x ∈ acc, x < p.domain_size) →
      acc.length ≤ size →
      Prf.generate_subsetAux p size fuel counter acc = some l →
      l.Sorted (· < ·) ∧ l.Nodup ∧ l.length = size ∧ ∀ x ∈ l, x < p.domain_size
  | 0, counter, acc, l, hd, hnd, hbound, hle, h => by
    rw [Prf.generate_subsetAux] at h
    split at h
    · cases h
    · rename_i hguard
      injection h with h
      subst h
      exact sorted_subset_exit acc size p.domain_size hnd hbound (by omega)
  | fuel + 1, counter, acc, l, hd, hnd, hbound, hle, h => by
    rw [Prf.generate_subsetAux] at h
    split at h
    · rename_i hguard
      rcases hg : p.generate_index counter with _ | idx
      · rw [hg] at h; cases h
      · rw [hg] at h
        simp only at h
        by_cases hmem : idx ∈ acc
        · rw [if_pos hmem] at h
          exact generate_subsetAux_spec p size fuel (counter + 1) acc l hd hnd hbound
            (by omega) h
        · rw [if_neg hmem] at h
          refine generate_subsetAux_spec p size fuel (counter + 1) (acc ++ [idx]) l hd
            (nodup_snoc_of_not_mem acc idx hnd hmem) ?_ (by simp; omega) h
          intro x hx
          rcases List.mem_append.mp hx with hx | hx
          · exact hbound x hx
          · rw [List.mem_singleton.mp hx]
            exact generate_index_lt p counter idx hd hg
    · rename_i hguard
      injection h with h
      subst h
      exact sorted_subset_exit acc size p.domain_size hnd hbound (by omega)

/-- C1: whenever `expand_seed` returns (the fuelled model of the Rust loop
terminating), the result is strictly ascending, duplicate-free, of length
exactly `size`, with every index below `domain_size`; as a pure function of
`(seed, size, domain_size)` it is deterministic.  The generation process is
the embedded AES-128-CTR construction itself: key = first 16 seed bytes,
block `c_le(8) || 0(8)`, first 8 ciphertext bytes little-endian, reduced mod
`domain_size`, collected until `size` distinct values are found. -/
theorem expand_seed_spec (aes : List Nat → List Nat → List Nat) (seed : List Nat)
    (size domain_size fuel : Nat) (l : List Nat) (hd : 0 < domain_size)
    (h : expand_seed aes seed size domain_size fuel = some l) :
    l.Sorted (· < ·) ∧ l.Nodup ∧ l.length = size ∧ (∀ x ∈ l, x < domain_size) ∧
    expand_seed aes seed size domain_size fuel = some l :=
  have hs := generate_subsetAux_spec (Prf.new aes seed domain_size) size fuel 0 [] l hd
    (List.nodup_nil) (by simp) (by simp) h
  ⟨hs.1, hs.2.1, hs.2.2.1, hs.2.2.2, h⟩

/-- C1 witness: with the identity block cipher, domain 5, size 3 and fuel 3
the model returns `[0, 1, 2]`, which is sorted, duplicate-free, of length 3,
and bounded by the domain. -/
theorem expand_seed_spec_witness :
    ([0, 1, 2] : List Nat).Sorted (· < ·) ∧ ([0, 1, 2] : List Nat).Nodup ∧
    ([0, 1, 2] : List Nat).length = 3 ∧ (∀ x ∈ ([0, 1, 2] : List Nat), x < 5) ∧
    expand_seed (fun _ b => b) (List.replicate 32 0) 3 5 3 = some [0, 1, 2] :=
  expand_seed_spec (fun _ b => b) (List.replicate 32 0) 3 5 3 [0, 1, 2]
    (by decide) (by decide)

theorem generate_subsetAux_none_of_small_domain (p : Prf) (size : Nat) :
    ∀ (fuel counter : Nat) (acc : List Nat),
      0 < p.domain_size → p.domain_size < size → acc.Nodup →
      (∀ x ∈ acc, x < p.domain_size) →
      Prf.generate_subsetAux p size fuel counter acc = none
  | fuel, counter, acc, hd, hds, hnd, hbound => by
    have hcard : acc.length ≤ p.domain_size := by
      have hsub : acc.toFinset ⊆ Finset.range p.domain_size := by
        intro x hx
        exact Finset.mem_range.mpr (hbound x (List.mem_toFinset.mp hx))
      have := Finset.card_le_card hsub
      rwa [List.toFinset_card_of_nodup hnd, Finset.card_range] at this
    have hguard : acc.length < size := by omega
    cases fuel with
    | zero => rw [Prf.generate_subsetAux, if_pos hguard]
    | succ fuel =>
      rw [Prf.generate_subsetAux, if_pos hguard]
      rcases hg : p.generate_index counter with _ | idx
      · rfl
      · simp only
        by_cases hmem : idx ∈ acc
        · rw [if_pos hmem]
          exact generate_subsetAux_none_of_small_domain p size fuel (counter + 1) acc
            hd hds hnd hbound
        · rw [if_neg hmem]
          refine generate_subsetAux_none_of_small_domain p size fuel (counter + 1)
            (acc ++ [idx]) hd hds (nodup_snoc_of_not_mem acc idx hnd hmem) ?_
          intro x hx
          rcases List.mem_append.mp hx with hx | hx
          · exact hbound x hx
          · rw [List.mem_singleton.mp hx]
            exact generate_index_lt p counter idx hd hg

/-- C10: subset expansion is total only under the unchecked precondition
`0 < domain_size ∧ size ≤ domain_size`: with `domain_size = 0` the index
generation hits the Rust `% 0` panic (modelled as `none`) and expansion
fails for every positive size; with `0 < domain_size < size` the
rejection-sampling loop can never collect `size` distinct indices, so it
returns for no amount of fuel (non-termination); `CompressedQuery::expand`
(whose parameters arrive from the network) forwards both cases with no
validation. -/
theorem expand_seed_unvalidated_parameters (aes : List Nat → List Nat → List Nat)
    (seed : List Nat) (q : CompressedQuery) :
    (∀ counter : Nat, (Prf.new aes seed 0).generate_index counter = none) ∧
    (∀ size fuel : Nat, 0 < size → expand_seed aes seed size 0 fuel = none) ∧
    (∀ size d fuel : Nat, 0 < d → d < size → expand_seed aes seed size d fuel = none) ∧
    (∀ fuel : Nat, q.domain_size = 0 → 0 < q.subset_size →
      CompressedQuery.expand aes q fuel = none) ∧
    (∀ fuel : Nat, 0 < q.domain_size → q.domain_size < q.subset_size →
      CompressedQuery.expand aes q fuel = none) := by
  have hzero : ∀ (s : List Nat) (size fuel : Nat), 0 < size →
      expand_seed aes s size 0 fuel = none := by
    intro s size fuel hsize
    rw [expand_seed, Prf.generate_subset]
    cases fuel with
    | zero => rw [Prf.generate_subsetAux, if_pos (by simpa using hsize)]
    | succ fuel =>
      rw [Prf.generate_subsetAux, if_pos (by simpa using hsize)]
      rfl
  have hsmall : ∀ (s : List Nat) (size d fuel : Nat), 0 < d → d < size →
      expand_seed aes s size d fuel = none := by
    intro s size d fuel hd hds
    exact generate_subsetAux_none_of_small_domain (Prf.new aes s d) size fuel 0 []
      hd hds List.nodup_nil (by simp)
  refine ⟨fun counter => rfl, hzero seed, hsmall seed, ?_, ?_⟩
  · intro fuel hq hs
    rw [CompressedQuery.expand, hq]
    exact hzero q.seed q.subset_size fuel hs
  · intro fuel hd hds
    exact hsmall q.seed q.subset_size q.domain_size fuel hd hds

/-- C10 witness: with the identity cipher, `domain_size = 0` fails for every
fuel, and `domain_size = 2 < size = 3` returns for no fuel up to 50. -/
theorem expand_seed_unvalidated_parameters_witness :
    (Prf.new (fun _ b => b) (List.replicate 32 0) 0).generate_index 7 = none ∧
    expand_seed (fun _ b => b) (List.replicate 32 0) 3 0 5 = none ∧
    expand_seed (fun _ b => b) (List.replicate 32 0) 3 2 50 = none ∧
    CompressedQuery.expand (fun _ b => b) ⟨List.replicate 32 0, 3, 0⟩ 5 = none ∧
    CompressedQuery.expand (fun _ b => b) ⟨List.replicate 32 0, 3, 2⟩ 50 = none :=
  have h := expand_seed_unvalidated_parameters (fun _ b => b) (List.replicate 32 0)
    ⟨List.replicate 32 0, 3, 2⟩
  have h0 := expand_seed_unvalidated_parameters (fun _ b => b) (List.replicate 32 0)
    ⟨List.replicate 32 0, 3, 0⟩
  ⟨h.1 7, h.2.1 3 5 (by decide), h.2.2.1 3 2 50 (by decide) (by decide),
   h0.2.2.2.1 5 rfl (by decide), h.2.2.2.2 50 (by decide) (by decide)⟩
